import Mathlib

/-!
Verification of the `kvstore::KVStore` class (src/include/kv_store.hpp,
src/unnamed/part_001): a bounded in-memory key-value cache with LRU
eviction and an optional write-ahead log (WAL).

Shallow embedding conventions:
- C++ `std::string` values (keys, values, file content) are `Str := List Char`.
- `std::unordered_map<std::string, CacheEntry>` is an association list
  `List (Str × Str)`; the map's key-uniqueness is a data-structure invariant
  (`unordered_map` holds at most one entry per key), carried as a hypothesis
  or proved as an invariant where needed.  The `lru_iter` member of
  `CacheEntry` is a pointer into `lru_list_` used only to erase that node in
  O(1); since each resident key occupies exactly one list node, erasing via
  the stored iterator is modelled as erasing the first occurrence of the key.
- `std::list<std::string> lru_list_` is `List Str`, front = most recently used.
- The WAL file handle `wal_file_` is `Option Str`: `none` models a null /
  failed-to-open handle, `some content` models an open file whose current
  content is `content` (appends go to the end; `std::endl` appends a newline).
- `recover()` opens `wal_path_` for reading; the outcome of that filesystem
  operation is an explicit parameter `disk : Option Str` (`none` = the file
  cannot be opened, `some content` = opened with that content).
- `std::istringstream` token extraction (`iss >> tok`) skips characters for
  which `std::isspace` is true, then takes the maximal run of non-space
  characters; `std::getline(iss, value)` takes the rest of the line up to a
  newline character.
-/

namespace KV

abbrev Str := List Char

def chSpace : Char := ' '
def chTab : Char := '\t'
def chNL : Char := '\n'
def chCR : Char := '\r'
def chVT : Char := '\x0b'
def chFF : Char := '\x0c'

/-- The six characters for which `std::isspace` holds in the default locale. -/
def isCppSpace (c : Char) : Bool :=
  c = chSpace || c = chTab || c = chNL || c = chCR || c = chVT || c = chFF

/-- Erase the first occurrence of `k` (models `lru_list_.erase(iter)` where
`iter` is the stored iterator of the node holding `k`). -/
def listErase : List Str → Str → List Str
  | [], _ => []
  | x :: tl, k => if x = k then tl else x :: listErase tl k

/-- Model of `cache_.find(key)`: value of the entry for `key`, if any. -/
def mapFind : List (Str × Str) → Str → Option Str
  | [], _ => none
  | (k', v) :: tl, k => if k' = k then some v else mapFind tl k

/-- Model of `cache_[key] = CacheEntry{value, …}` and `it->second.value = value`:
replace the value of an existing entry, or insert a fresh one. -/
def mapSet : List (Str × Str) → Str → Str → List (Str × Str)
  | [], k, v => [(k, v)]
  | (k', v') :: tl, k, v =>
      if k' = k then (k', v) :: tl else (k', v') :: mapSet tl k v

/-- Model of `cache_.erase(key)`: remove the entry for `key`, if any. -/
def mapErase : List (Str × Str) → Str → List (Str × Str)
  | [], _ => []
  | (k', v') :: tl, k => if k' = k then tl else (k', v') :: mapErase tl k

/-- State of a `kvstore::KVStore` object. -/
structure KVStore where
  cache : List (Str × Str)
  lru_list : List Str
  max_capacity : Nat
  wal_path : Str
  wal_file : Option Str
deriving DecidableEq

/-- The `KVStore(max_capacity, wal_path)` constructor.  `wal_file` is the
open-outcome of the WAL file: `none` when `wal_path` is empty or the open
failed, `some existing` when it opened onto a file with content `existing`
(a fresh log is `some []`). -/
def initStore (cap : Nat) (wp : Str) (wf : Option Str) : KVStore :=
  { cache := [], lru_list := [], max_capacity := cap, wal_path := wp, wal_file := wf }

/-- The characters `write_wal` emits for one record, before the newline:
`operation << " " << key`, then `" " << value` if `value` is nonempty. -/
def wal_line (operation key value : Str) : Str :=
  operation ++ chSpace :: key ++ (if value.isEmpty then [] else chSpace :: value)

/-- Model of `KVStore::write_wal(operation, key, value)`: when the handle is open,
append the record line and `std::endl`. -/
def write_wal (s : KVStore) (operation key value : Str) : KVStore :=
  match s.wal_file with
  | none => s
  | some content =>
      { s with wal_file := some (content ++ wal_line operation key value ++ [chNL]) }

/-- Model of `KVStore::evict_lru()`: drop the back of the recency list and its
index entry. -/
def evict_lru (s : KVStore) : KVStore :=
  match s.lru_list.getLast? with
  | none => s
  | some lru_key =>
      { s with cache := mapErase s.cache lru_key, lru_list := s.lru_list.dropLast }

/-- Model of `KVStore::put(key, value)`. -/
def KVStore.put (s : KVStore) (key value : Str) : Bool × KVStore :=
  match mapFind s.cache key with
  | some _ =>
      let s := { s with cache := mapSet s.cache key value,
                        lru_list := key :: listErase s.lru_list key }
      (true, write_wal s ("PUT".toList) key value)
  | none =>
      let s := if s.cache.length ≥ s.max_capacity then evict_lru s else s
      let s := { s with lru_list := key :: s.lru_list,
                        cache := mapSet s.cache key value }
      (true, write_wal s ("PUT".toList) key value)

/-- Model of `KVStore::get(key)`. -/
def KVStore.get (s : KVStore) (key : Str) : Option Str × KVStore :=
  match mapFind s.cache key with
  | none => (none, s)
  | some v => (some v, { s with lru_list := key :: listErase s.lru_list key })

/-- Model of `KVStore::del(key)`. -/
def KVStore.del (s : KVStore) (key : Str) : Bool × KVStore :=
  match mapFind s.cache key with
  | none => (false, s)
  | some _ =>
      let s := { s with lru_list := listErase s.lru_list key,
                        cache := mapErase s.cache key }
      (true, write_wal s ("DEL".toList) key [])

/-- Model of `KVStore::exists(key)` — a `const` member, hence a pure function. -/
def KVStore.existsKey (s : KVStore) (key : Str) : Bool :=
  (mapFind s.cache key).isSome

/-- Model of `KVStore::size()` — a `const` member, hence a pure function. -/
def KVStore.size (s : KVStore) : Nat := s.cache.length

/-- Model of `KVStore::clear()`. -/
def KVStore.clear (s : KVStore) : KVStore :=
  write_wal { s with cache := [], lru_list := [] } ("CLEAR".toList) [] []

/-- Model of `iss >> tok`: skip `isspace` characters, then read a maximal nonempty
run of non-space characters; `none` when only whitespace remains (stream
failure, the enclosing `if` takes the `continue`/skip branch). -/
def extractToken (cs : Str) : Option (Str × Str) :=
  match cs.dropWhile isCppSpace with
  | [] => none
  | c :: tl =>
      some ((c :: tl).takeWhile (fun x => ! isCppSpace x),
            (c :: tl).dropWhile (fun x => ! isCppSpace x))

/-- Split at every newline character, keeping a (possibly empty) final
segment: helper for `getLines`. -/
def splitNL : Str → List Str
  | [] => [[]]
  | c :: tl =>
      if c = chNL then [] :: splitNL tl
      else
        match splitNL tl with
        | [] => [[c]]
        | l :: ls => (c :: l) :: ls

/-- Drop a final empty segment: a final `getline` that reads nothing at end
of file fails, so it produces no line. -/
def dropFinalEmpty (ls : List Str) : List Str :=
  match ls.getLast? with
  | some [] => ls.dropLast
  | _ => ls

/-- The sequence of lines produced by `while (std::getline(wal_in, line))`
over a file with content `cs`: segments split at newlines, except that a
final empty segment (content empty or ending in a newline) yields a failed
final `getline`, not an empty line. -/
def getLines (cs : Str) : List Str := dropFinalEmpty (splitNL cs)

/-- One iteration of the `recover()` replay loop on one line. -/
def replayLine (s : KVStore) (line : Str) : KVStore :=
  match extractToken line with
  | none => s
  | some (op, rest) =>
      if op = ("PUT".toList) then
        match extractToken rest with
        | none => s
        | some (key, rest2) =>
            let raw := rest2.takeWhile (fun c => ! (c = chNL))
            let value :=
              match raw with
              | [] => []
              | c :: tl => if c = chSpace then tl else c :: tl
            (s.put key value).2
      else if op = ("DEL".toList) then
        match extractToken rest with
        | none => s
        | some (key, _) => (s.del key).2
      else if op = ("CLEAR".toList) then
        s.clear
      else s

/-- Model of `KVStore::recover()`.  Here `disk` is the outcome of opening `wal_path_` for
reading (`none`: cannot be opened).  The WAL handle is suspended (moved out)
for the duration of the replay and restored afterwards. -/
def KVStore.recover (s : KVStore) (disk : Option Str) : Bool × KVStore :=
  if s.wal_path = [] then (false, s)
  else
    match disk with
    | none => (false, s)
    | some content =>
        let s0 := { s with wal_file := none }
        let s1 := (getLines content).foldl replayLine s0
        (true, { s1 with wal_file := s.wal_file })

/-- A record line rejected (skipped) by the replay loop: token extraction of
the operation fails, `PUT`/`DEL` lacking a key token, or an unrecognized
operation name. -/
def malformedLine (line : Str) : Bool :=
  match extractToken line with
  | none => true
  | some (op, rest) =>
      if op = ("PUT".toList) then (extractToken rest).isNone
      else if op = ("DEL".toList) then (extractToken rest).isNone
      else ! (op = ("CLEAR".toList))

/-- The public operations of claim C1's operation sequences. -/
inductive Op where
  | put (key value : Str)
  | get (key : Str)
  | del (key : Str)
  | exist (key : Str)
  | size
  | clear
deriving DecidableEq

/-- Apply one public operation, keeping the resulting state (`exists` and
`size` are `const` members and leave the state unchanged). -/
def applyOp (s : KVStore) : Op → KVStore
  | .put k v => (s.put k v).2
  | .get k => (s.get k).2
  | .del k => (s.del k).2
  | .exist _ => s
  | .size => s
  | .clear => s.clear

def runOps (s : KVStore) (ops : List Op) : KVStore := ops.foldl applyOp s

/-- The invariant tying the index and the recency list together: the recency
list has no duplicate keys, the index's key multiset is exactly the recency
list's, and the entry count respects the capacity. -/
def Inv (s : KVStore) : Prop :=
  s.lru_list.Nodup ∧ (s.cache.map Prod.fst).Perm s.lru_list ∧
    s.cache.length ≤ s.max_capacity

/-- The mutating operations of claim C2's sequences. -/
inductive MutOp where
  | putOp (key value : Str)
  | delOp (key : Str)
  | clearOp
deriving DecidableEq

def applyMut (s : KVStore) : MutOp → KVStore
  | .putOp k v => (s.put k v).2
  | .delOp k => (s.del k).2
  | .clearOp => s.clear

def runMut (s : KVStore) (ops : List MutOp) : KVStore := ops.foldl applyMut s

/-- The record lines a run of `ops` from state `s` appends to an open WAL:
one PUT line per put, one DEL line per delete of a present key (deletes of
absent keys return early and log nothing), one CLEAR line per clear. -/
def walRecords : KVStore → List MutOp → List Str
  | _, [] => []
  | s, op :: rest =>
      (match op with
       | .putOp k v => [wal_line ("PUT".toList) k v]
       | .delOp k =>
           if (mapFind s.cache k).isSome then [wal_line ("DEL".toList) k []] else []
       | .clearOp => [wal_line ("CLEAR".toList) [] []]) ++ walRecords (applyMut s op) rest

/-- File content encoding a list of record lines, each newline-terminated. -/
def encodeLines : List Str → Str
  | [] => []
  | r :: rs => r ++ chNL :: encodeLines rs

/-- Keys round-trip through the line format only if nonempty and free of the
whitespace characters the `>>` extractor splits on. -/
def goodKey (k : Str) : Prop := k ≠ [] ∧ ∀ c ∈ k, isCppSpace c = false

/-- Values must not contain a newline (the record terminator). -/
def goodVal (v : Str) : Prop := chNL ∉ v

def GoodOp : MutOp → Prop
  | .putOp k v => goodKey k ∧ goodVal v
  | .delOp k => goodKey k
  | .clearOp => True

instance (k : Str) : Decidable (goodKey k) := by
  unfold goodKey
  infer_instance

instance (v : Str) : Decidable (goodVal v) := by
  unfold goodVal
  infer_instance

instance (op : MutOp) : Decidable (GoodOp op) := by
  cases op <;> unfold GoodOp <;> infer_instance

/-- The replay-relevant part of the state: index, recency list, capacity. -/
def core (s : KVStore) : List (Str × Str) × List Str × Nat :=
  (s.cache, s.lru_list, s.max_capacity)

/-- The current content of the WAL file (empty when no handle is open). -/
def walContent (s : KVStore) : Str := s.wal_file.getD []

/-- The original run of claim C2: apply `ops` to a cache of capacity `cap`
with log path `wp` and a fresh open log. -/
def originalRun (cap : Nat) (wp : Str) (ops : List MutOp) : KVStore :=
  runMut (initStore cap wp (some [])) ops

/-- The recovered store of claim C2: construct a fresh cache with the same
capacity over the log content the original run produced, and `recover()`. -/
def recoveredRun (cap : Nat) (wp : Str) (ops : List MutOp) : KVStore :=
  ((initStore cap wp (some (walContent (originalRun cap wp ops)))).recover
    (some (walContent (originalRun cap wp ops)))).2


-- sanity checks (kept as anonymous examples)
example :
    ((((initStore 3 [] none).put ("a".toList) ("1".toList)).2.get ("a".toList)).1)
      = some ("1".toList) := by decide

example :
    getLines (("PUT a 1\nDEL a\nCLEAR \n").toList)
      = [("PUT a 1").toList, ("DEL a").toList, ("CLEAR ").toList] := by decide

example :
    (replayLine (initStore 3 ("w".toList) none) (("PUT a  b c").toList)).cache
      = [(("a").toList, (" b c").toList)] := by decide

/-! ### Lemmas about `listErase` -/

theorem listErase_of_not_mem {l : List Str} {k : Str} (h : k ∉ l) : listErase l k = l := by
  induction l with
  | nil => rfl
  | cons x tl ih =>
      simp only [List.mem_cons, not_or] at h
      simp only [listErase, if_neg (Ne.symm h.1)]
      rw [ih h.2]

theorem mem_of_mem_listErase {l : List Str} {k x : Str} (h : x ∈ listErase l k) : x ∈ l := by
  induction l with
  | nil => simp [listErase] at h
  | cons y tl ih =>
      by_cases hy : y = k
      · simp only [listErase, if_pos hy] at h
        exact List.mem_cons_of_mem _ h
      · simp only [listErase, if_neg hy] at h
        rcases List.mem_cons.mp h with h1 | h1
        · exact h1 ▸ List.mem_cons_self _ _
        · exact List.mem_cons_of_mem _ (ih h1)

theorem perm_cons_listErase {l : List Str} {k : Str} (h : k ∈ l) :
    l.Perm (k :: listErase l k) := by
  induction l with
  | nil => cases h
  | cons x tl ih =>
      by_cases hx : x = k
      · subst hx
        simp [listErase]
      · have hk : k ∈ tl := by
          rcases List.mem_cons.mp h with h1 | h1
          · exact absurd h1.symm hx
          · exact h1
        simp only [listErase, if_neg hx]
        exact ((ih hk).cons x).trans (List.Perm.swap k x _)

theorem nodup_listErase {l : List Str} (k : Str) (h : l.Nodup) : (listErase l k).Nodup := by
  induction l with
  | nil => simp [listErase]
  | cons x tl ih =>
      rcases List.nodup_cons.mp h with ⟨hx, htl⟩
      by_cases hk : x = k
      · simpa [listErase, hk] using htl
      · simp only [listErase, if_neg hk]
        exact List.nodup_cons.mpr ⟨fun hc => hx (mem_of_mem_listErase hc), ih htl⟩

theorem not_mem_listErase {l : List Str} {k : Str} (h : l.Nodup) : k ∉ listErase l k := by
  induction l with
  | nil => simp [listErase]
  | cons x tl ih =>
      rcases List.nodup_cons.mp h with ⟨hx, htl⟩
      by_cases hk : x = k
      · subst hk
        simpa [listErase] using hx
      · simp only [listErase, if_neg hk, List.mem_cons, not_or]
        exact ⟨fun hc => hk hc.symm, ih htl⟩

theorem length_listErase {l : List Str} {k : Str} (h : k ∈ l) :
    (listErase l k).length + 1 = l.length := by
  induction l with
  | nil => cases h
  | cons x tl ih =>
      by_cases hk : x = k
      · simp [listErase, hk]
      · have hk' : k ∈ tl := by
          rcases List.mem_cons.mp h with h1 | h1
          · exact absurd h1.symm hk
          · exact h1
        have := ih hk'
        simp only [listErase, if_neg hk, List.length_cons]
        omega

theorem listErase_append_of_not_mem {l₁ : List Str} (l₂ : List Str) {k : Str} (h : k ∉ l₁) :
    listErase (l₁ ++ l₂) k = l₁ ++ listErase l₂ k := by
  induction l₁ with
  | nil => rfl
  | cons x tl ih =>
      simp only [List.mem_cons, not_or] at h
      simp only [List.cons_append, listErase, if_neg (Ne.symm h.1), List.append_eq]
      rw [ih h.2]

theorem perm_listErase {l₁ l₂ : List Str} (k : Str) (h : l₁.Perm l₂) :
    (listErase l₁ k).Perm (listErase l₂ k) := by
  induction h with
  | nil => simp [listErase]
  | cons x h ih =>
      by_cases hx : x = k
      · simpa [listErase, hx] using h
      · simpa [listErase, hx] using ih.cons x
  | swap x y l =>
      by_cases hy : y = k <;> by_cases hx : x = k
      · simp only [listErase, if_pos hy, if_pos hx, hy.trans hx.symm]
        exact List.Perm.refl _
      · simp only [listErase, if_pos hy, if_neg hx]
        exact List.Perm.refl _
      · simp only [listErase, if_neg hy, if_pos hx]
        exact List.Perm.refl _
      · simp only [listErase, if_neg hy, if_neg hx]
        exact List.Perm.swap x y _
  | trans _ _ ih1 ih2 => exact ih1.trans ih2

theorem not_mem_of_nodup_concat {l : List Str} {a : Str} (h : (l ++ [a]).Nodup) : a ∉ l := by
  induction l with
  | nil => simp
  | cons x tl ih =>
      rw [List.cons_append] at h
      rcases List.nodup_cons.mp h with ⟨hx, htl⟩
      simp only [List.mem_cons, not_or]
      refine ⟨fun hax => hx ?_, ih htl⟩
      exact hax ▸ List.mem_append_right tl (List.mem_singleton_self a)

theorem listErase_concat_of_not_mem {l₁ : List Str} {a : Str} (h : a ∉ l₁) :
    listErase (l₁ ++ [a]) a = l₁ := by
  rw [listErase_append_of_not_mem _ h]
  simp [listErase]

/-! ### Lemmas about the association-list map -/

theorem mapFind_eq_none {m : List (Str × Str)} {k : Str} :
    mapFind m k = none ↔ k ∉ m.map Prod.fst := by
  induction m with
  | nil => simp [mapFind]
  | cons p tl ih =>
      obtain ⟨k', v⟩ := p
      by_cases hk : k' = k
      · subst hk
        simp [mapFind]
      · have hk' : ¬ k = k' := fun hh => hk hh.symm
        simp [mapFind, hk, hk', ih]

theorem mapFind_isSome_iff {m : List (Str × Str)} {k : Str} :
    (mapFind m k).isSome = true ↔ k ∈ m.map Prod.fst := by
  rw [Option.isSome_iff_ne_none, Ne, mapFind_eq_none]
  exact not_not

theorem mapFind_mapSet_self (m : List (Str × Str)) (k v : Str) :
    mapFind (mapSet m k v) k = some v := by
  induction m with
  | nil => simp [mapSet, mapFind]
  | cons p tl ih =>
      obtain ⟨k', v'⟩ := p
      by_cases hk : k' = k <;> simp [mapSet, mapFind, hk, ih]

theorem mapSet_map_fst_of_mem {m : List (Str × Str)} {k : Str} (v : Str)
    (h : k ∈ m.map Prod.fst) : (mapSet m k v).map Prod.fst = m.map Prod.fst := by
  induction m with
  | nil => cases h
  | cons p tl ih =>
      obtain ⟨k', v'⟩ := p
      by_cases hk : k' = k
      · simp [mapSet, hk]
      · have hmem : k ∈ tl.map Prod.fst := by
          rcases List.mem_cons.mp h with h1 | h1
          · exact absurd h1.symm hk
          · exact h1
        simp [mapSet, hk, ih hmem]

theorem mapSet_map_fst_of_not_mem {m : List (Str × Str)} {k : Str} (v : Str)
    (h : k ∉ m.map Prod.fst) : (mapSet m k v).map Prod.fst = m.map Prod.fst ++ [k] := by
  induction m with
  | nil => simp [mapSet]
  | cons p tl ih =>
      obtain ⟨k', v'⟩ := p
      simp only [List.map_cons, List.mem_cons, not_or] at h
      simp [mapSet, Ne.symm h.1, ih h.2]

theorem mapErase_map_fst (m : List (Str × Str)) (k : Str) :
    (mapErase m k).map Prod.fst = listErase (m.map Prod.fst) k := by
  induction m with
  | nil => rfl
  | cons p tl ih =>
      obtain ⟨k', v'⟩ := p
      by_cases hk : k' = k <;> simp [mapErase, listErase, hk, ih]

theorem mapFind_mapErase_of_none {m : List (Str × Str)} {k k' : Str}
    (h : mapFind m k = none) : mapFind (mapErase m k') k = none := by
  rw [mapFind_eq_none] at h ⊢
  rw [mapErase_map_fst]
  exact fun hc => h (mem_of_mem_listErase hc)

theorem mapFind_mapErase_self {m : List (Str × Str)} {k : Str}
    (h : (m.map Prod.fst).Nodup) : mapFind (mapErase m k) k = none := by
  rw [mapFind_eq_none, mapErase_map_fst]
  exact not_mem_listErase h

theorem mapSet_length_of_mem {m : List (Str × Str)} {k : Str} (v : Str)
    (h : k ∈ m.map Prod.fst) : (mapSet m k v).length = m.length := by
  have := congrArg List.length (mapSet_map_fst_of_mem v h)
  simpa using this

theorem mapSet_length_of_not_mem {m : List (Str × Str)} {k : Str} (v : Str)
    (h : k ∉ m.map Prod.fst) : (mapSet m k v).length = m.length + 1 := by
  have := congrArg List.length (mapSet_map_fst_of_not_mem v h)
  simpa using this

theorem mapErase_length_of_mem {m : List (Str × Str)} {k : Str}
    (h : k ∈ m.map Prod.fst) : (mapErase m k).length + 1 = m.length := by
  have h1 := congrArg List.length (mapErase_map_fst m k)
  have h2 := length_listErase h
  simp only [List.length_map] at h1 h2
  omega

/-! ### Projection lemmas for the public operations -/

theorem write_wal_cache (s : KVStore) (o k v : Str) :
    (write_wal s o k v).cache = s.cache := by
  rcases hw : s.wal_file with _ | c <;> simp [write_wal, hw]

theorem write_wal_lru (s : KVStore) (o k v : Str) :
    (write_wal s o k v).lru_list = s.lru_list := by
  rcases hw : s.wal_file with _ | c <;> simp [write_wal, hw]

theorem write_wal_max (s : KVStore) (o k v : Str) :
    (write_wal s o k v).max_capacity = s.max_capacity := by
  rcases hw : s.wal_file with _ | c <;> simp [write_wal, hw]

theorem write_wal_path (s : KVStore) (o k v : Str) :
    (write_wal s o k v).wal_path = s.wal_path := by
  rcases hw : s.wal_file with _ | c <;> simp [write_wal, hw]

theorem write_wal_of_open {s : KVStore} {content : Str} (h : s.wal_file = some content)
    (o k v : Str) :
    (write_wal s o k v).wal_file = some (content ++ wal_line o k v ++ [chNL]) := by
  simp [write_wal, h]

theorem put_fst (s : KVStore) (k v : Str) : (s.put k v).1 = true := by
  rcases hf : mapFind s.cache k with _ | v0 <;> simp [KVStore.put, hf]

theorem put_cache_of_found {s : KVStore} {k v0 : Str} (v : Str)
    (hf : mapFind s.cache k = some v0) :
    (s.put k v).2.cache = mapSet s.cache k v := by
  simp [KVStore.put, hf, write_wal_cache]

theorem put_lru_of_found {s : KVStore} {k v0 : Str} (v : Str)
    (hf : mapFind s.cache k = some v0) :
    (s.put k v).2.lru_list = k :: listErase s.lru_list k := by
  simp [KVStore.put, hf, write_wal_lru]

theorem put_cache_of_none_lt {s : KVStore} {k : Str} (v : Str)
    (hf : mapFind s.cache k = none) (hlt : s.cache.length < s.max_capacity) :
    (s.put k v).2.cache = mapSet s.cache k v := by
  simp [KVStore.put, hf, Nat.not_le.mpr hlt, write_wal_cache]

theorem put_lru_of_none_lt {s : KVStore} {k : Str} (v : Str)
    (hf : mapFind s.cache k = none) (hlt : s.cache.length < s.max_capacity) :
    (s.put k v).2.lru_list = k :: s.lru_list := by
  simp [KVStore.put, hf, Nat.not_le.mpr hlt, write_wal_lru]

theorem put_cache_of_none_ge {s : KVStore} {k a : Str} (v : Str)
    (hf : mapFind s.cache k = none) (hge : s.cache.length ≥ s.max_capacity)
    (hglast : s.lru_list.getLast? = some a) :
    (s.put k v).2.cache = mapSet (mapErase s.cache a) k v := by
  simp [KVStore.put, hf, hge, evict_lru, hglast, write_wal_cache]

theorem put_lru_of_none_ge {s : KVStore} {k a : Str} (v : Str)
    (hf : mapFind s.cache k = none) (hge : s.cache.length ≥ s.max_capacity)
    (hglast : s.lru_list.getLast? = some a) :
    (s.put k v).2.lru_list = k :: s.lru_list.dropLast := by
  simp [KVStore.put, hf, hge, evict_lru, hglast, write_wal_lru]

theorem put_max (s : KVStore) (k v : Str) :
    (s.put k v).2.max_capacity = s.max_capacity := by
  rcases hf : mapFind s.cache k with _ | v0 <;>
    simp [KVStore.put, hf, evict_lru, write_wal_max] <;>
    rcases hglast : s.lru_list.getLast? with _ | a <;>
    simp [hglast] <;> split <;> simp [write_wal_max]

theorem get_of_none {s : KVStore} {k : Str} (hf : mapFind s.cache k = none) :
    s.get k = (none, s) := by
  simp [KVStore.get, hf]

theorem get_of_found {s : KVStore} {k v0 : Str} (hf : mapFind s.cache k = some v0) :
    s.get k = (some v0, { s with lru_list := k :: listErase s.lru_list k }) := by
  simp [KVStore.get, hf]

theorem del_of_none {s : KVStore} {k : Str} (hf : mapFind s.cache k = none) :
    s.del k = (false, s) := by
  simp [KVStore.del, hf]

theorem del_fst_of_found {s : KVStore} {k v0 : Str} (hf : mapFind s.cache k = some v0) :
    (s.del k).1 = true := by
  simp [KVStore.del, hf]

theorem del_cache_of_found {s : KVStore} {k v0 : Str} (hf : mapFind s.cache k = some v0) :
    (s.del k).2.cache = mapErase s.cache k := by
  simp [KVStore.del, hf, write_wal_cache]

theorem del_lru_of_found {s : KVStore} {k v0 : Str} (hf : mapFind s.cache k = some v0) :
    (s.del k).2.lru_list = listErase s.lru_list k := by
  simp [KVStore.del, hf, write_wal_lru]

theorem del_max (s : KVStore) (k : Str) :
    (s.del k).2.max_capacity = s.max_capacity := by
  rcases hf : mapFind s.cache k with _ | v0 <;> simp [KVStore.del, hf, write_wal_max]

theorem get_max (s : KVStore) (k : Str) :
    (s.get k).2.max_capacity = s.max_capacity := by
  rcases hf : mapFind s.cache k with _ | v0 <;> simp [KVStore.get, hf]

theorem clear_cache (s : KVStore) : s.clear.cache = [] := by
  simp [KVStore.clear, write_wal_cache]

theorem clear_lru (s : KVStore) : s.clear.lru_list = [] := by
  simp [KVStore.clear, write_wal_lru]

theorem clear_max (s : KVStore) : s.clear.max_capacity = s.max_capacity := by
  simp [KVStore.clear, write_wal_max]

theorem applyOp_max (s : KVStore) (op : Op) :
    (applyOp s op).max_capacity = s.max_capacity := by
  cases op with
  | put k v => exact put_max s k v
  | get k => exact get_max s k
  | del k => exact del_max s k
  | exist k => rfl
  | size => rfl
  | clear => exact clear_max s

/-! ### The structural invariant (claim C1) -/

theorem inv_put {s : KVStore} (k v : Str) (hcap : 0 < s.max_capacity) (h : Inv s) :
    Inv (s.put k v).2 := by
  obtain ⟨hnd, hperm, hlen⟩ := h
  rcases hf : mapFind s.cache k with _ | v0
  · -- key absent: possibly evict, then insert at the front
    have hkeys : k ∉ s.cache.map Prod.fst := mapFind_eq_none.mp hf
    have hlru : k ∉ s.lru_list := fun hc => hkeys (hperm.mem_iff.mpr hc)
    have hlrulen : (s.cache.map Prod.fst).length = s.lru_list.length := hperm.length_eq
    rw [List.length_map] at hlrulen
    by_cases hge : s.cache.length ≥ s.max_capacity
    · have hlen0 : s.cache.length = s.max_capacity := le_antisymm hlen hge
      rcases s.lru_list.eq_nil_or_concat with hnil | ⟨l₁, a, hl⟩
      · rw [hnil] at hlrulen
        simp only [List.length_nil] at hlrulen
        exfalso
        omega
      rw [List.concat_eq_append] at hl
      have hglast : s.lru_list.getLast? = some a := by
        rw [hl]
        exact List.getLast?_concat _
      have hndl : (l₁ ++ [a]).Nodup := hl ▸ hnd
      have hanotmem : a ∉ l₁ := not_mem_of_nodup_concat hndl
      have hamem : a ∈ s.cache.map Prod.fst := by
        refine hperm.mem_iff.mpr ?_
        rw [hl]
        exact List.mem_append_right _ (List.mem_singleton_self a)
      have hknot1 : k ∉ (mapErase s.cache a).map Prod.fst := by
        rw [mapErase_map_fst]
        exact fun hc => hkeys (mem_of_mem_listErase hc)
      refine ⟨?_, ?_, ?_⟩
      · rw [put_lru_of_none_ge v hf hge hglast]
        refine List.nodup_cons.mpr ⟨?_, hnd.sublist (List.dropLast_sublist _)⟩
        exact fun hc => hlru ((List.dropLast_sublist _).subset hc)
      · rw [put_cache_of_none_ge v hf hge hglast, put_lru_of_none_ge v hf hge hglast,
            mapSet_map_fst_of_not_mem v hknot1, mapErase_map_fst]
        have h1 : (listErase (s.cache.map Prod.fst) a).Perm (listErase s.lru_list a) :=
          perm_listErase a hperm
        have h2 : listErase s.lru_list a = s.lru_list.dropLast := by
          rw [hl, listErase_concat_of_not_mem hanotmem, List.dropLast_concat]
        exact (List.perm_append_singleton k _).trans ((h2 ▸ h1).cons k)
      · rw [put_cache_of_none_ge v hf hge hglast, put_max,
            mapSet_length_of_not_mem v hknot1]
        have h3 := mapErase_length_of_mem hamem
        omega
    · have hlt : s.cache.length < s.max_capacity := Nat.lt_of_not_le hge
      refine ⟨?_, ?_, ?_⟩
      · rw [put_lru_of_none_lt v hf hlt]
        exact List.nodup_cons.mpr ⟨hlru, hnd⟩
      · rw [put_cache_of_none_lt v hf hlt, put_lru_of_none_lt v hf hlt,
            mapSet_map_fst_of_not_mem v hkeys]
        exact (List.perm_append_singleton k _).trans (hperm.cons k)
      · rw [put_cache_of_none_lt v hf hlt, put_max, mapSet_length_of_not_mem v hkeys]
        omega
  · -- key present: update in place, promote to front
    have hkmem : k ∈ s.cache.map Prod.fst := by
      rw [← mapFind_isSome_iff, hf]
      rfl
    have hklru : k ∈ s.lru_list := hperm.mem_iff.mp hkmem
    refine ⟨?_, ?_, ?_⟩
    · rw [put_lru_of_found v hf]
      exact List.nodup_cons.mpr ⟨not_mem_listErase hnd, nodup_listErase k hnd⟩
    · rw [put_cache_of_found v hf, put_lru_of_found v hf, mapSet_map_fst_of_mem v hkmem]
      exact hperm.trans (perm_cons_listErase hklru)
    · rw [put_cache_of_found v hf, put_max, mapSet_length_of_mem v hkmem]
      exact hlen

theorem inv_get {s : KVStore} (k : Str) (h : Inv s) : Inv (s.get k).2 := by
  obtain ⟨hnd, hperm, hlen⟩ := h
  rcases hf : mapFind s.cache k with _ | v0
  · rw [get_of_none hf]
    exact ⟨hnd, hperm, hlen⟩
  · have hkmem : k ∈ s.cache.map Prod.fst := by
      rw [← mapFind_isSome_iff, hf]
      rfl
    have hklru : k ∈ s.lru_list := hperm.mem_iff.mp hkmem
    rw [get_of_found hf]
    exact ⟨List.nodup_cons.mpr ⟨not_mem_listErase hnd, nodup_listErase k hnd⟩,
           hperm.trans (perm_cons_listErase hklru), hlen⟩

theorem inv_del {s : KVStore} (k : Str) (h : Inv s) : Inv (s.del k).2 := by
  obtain ⟨hnd, hperm, hlen⟩ := h
  rcases hf : mapFind s.cache k with _ | v0
  · rw [del_of_none hf]
    exact ⟨hnd, hperm, hlen⟩
  · have hkmem : k ∈ s.cache.map Prod.fst := by
      rw [← mapFind_isSome_iff, hf]
      rfl
    refine ⟨?_, ?_, ?_⟩
    · rw [del_lru_of_found hf]
      exact nodup_listErase k hnd
    · rw [del_cache_of_found hf, del_lru_of_found hf, mapErase_map_fst]
      exact perm_listErase k hperm
    · rw [del_cache_of_found hf, del_max]
      have := mapErase_length_of_mem hkmem
      omega

theorem inv_clear {s : KVStore} : Inv s.clear := by
  refine ⟨?_, ?_, ?_⟩
  · rw [clear_lru]
    exact List.nodup_nil
  · rw [clear_cache, clear_lru]
    exact List.Perm.refl _
  · rw [clear_cache]
    exact Nat.zero_le _

theorem inv_applyOp {s : KVStore} (op : Op) (hcap : 0 < s.max_capacity) (h : Inv s) :
    Inv (applyOp s op) := by
  cases op with
  | put k v => exact inv_put k v hcap h
  | get k => exact inv_get k h
  | del k => exact inv_del k h
  | exist k => exact h
  | size => exact h
  | clear => exact inv_clear

theorem inv_runOps (ops : List Op) :
    ∀ s : KVStore, 0 < s.max_capacity → Inv s →
      Inv (runOps s ops) ∧ (runOps s ops).max_capacity = s.max_capacity := by
  induction ops with
  | nil => exact fun s _ hi => ⟨hi, rfl⟩
  | cons op rest ih =>
      intro s hcap hi
      have hmax := applyOp_max s op
      have hstep := inv_applyOp op hcap hi
      have hrec := ih (applyOp s op) (hmax ▸ hcap) hstep
      exact ⟨hrec.1, hrec.2.trans hmax⟩

theorem inv_initStore (cap : Nat) (wp : Str) (wf : Option Str) :
    Inv (initStore cap wp wf) :=
  ⟨List.nodup_nil, List.Perm.refl _, Nat.zero_le _⟩

theorem put_cache_of_none_ge_nil {s : KVStore} {k : Str} (v : Str)
    (hf : mapFind s.cache k = none) (hge : s.cache.length ≥ s.max_capacity)
    (hglast : s.lru_list.getLast? = none) :
    (s.put k v).2.cache = mapSet s.cache k v := by
  simp [KVStore.put, hf, hge, evict_lru, hglast, write_wal_cache]

/-- After any `put(key, value)`, the index maps `key` to `value`. -/
theorem put_find_self (s : KVStore) (k v : Str) :
    mapFind (s.put k v).2.cache k = some v := by
  rcases hf : mapFind s.cache k with _ | v0
  · by_cases hge : s.cache.length ≥ s.max_capacity
    · rcases hglast : s.lru_list.getLast? with _ | a
      · rw [put_cache_of_none_ge_nil v hf hge hglast]
        exact mapFind_mapSet_self _ _ _
      · rw [put_cache_of_none_ge v hf hge hglast]
        exact mapFind_mapSet_self _ _ _
    · rw [put_cache_of_none_lt v hf (Nat.lt_of_not_le hge)]
      exact mapFind_mapSet_self _ _ _
  · rw [put_cache_of_found v hf]
    exact mapFind_mapSet_self _ _ _

/-! ### Claim theorems: C1, C4, C5, C7, C10 -/

/-- C1: for every cache constructed with a positive `max_capacity` and every
sequence of put/get/del/exists/size/clear operations, after each call returns
the set of keys in the index equals the set of keys in the recency list, their
common length equals `size()`, and `size() <= max_capacity`.  (The state after
each call of a sequence is `runOps` over the corresponding prefix, so
quantifying over all sequences covers every intermediate state.) -/
theorem c1_index_recency_capacity (cap : Nat) (wp : Str) (wf : Option Str)
    (ops : List Op) (hcap : 0 < cap) :
    (∀ k, ((mapFind (runOps (initStore cap wp wf) ops).cache k).isSome = true ↔
        k ∈ (runOps (initStore cap wp wf) ops).lru_list)) ∧
    (runOps (initStore cap wp wf) ops).size =
      (runOps (initStore cap wp wf) ops).lru_list.length ∧
    (runOps (initStore cap wp wf) ops).size ≤ cap := by
  obtain ⟨⟨hnd, hperm, hlen⟩, hmax⟩ :=
    inv_runOps ops (initStore cap wp wf) hcap (inv_initStore cap wp wf)
  refine ⟨?_, ?_, ?_⟩
  · intro k
    rw [mapFind_isSome_iff]
    exact hperm.mem_iff
  · have hx := hperm.length_eq
    rw [List.length_map] at hx
    exact hx
  · exact le_of_le_of_eq hlen hmax

theorem c1_index_recency_capacity_witness :
    0 < 2 ∧
    ((∀ k, ((mapFind (runOps (initStore 2 [] none)
          [Op.put ("a".toList) ("1".toList)]).cache k).isSome = true ↔
        k ∈ (runOps (initStore 2 [] none)
          [Op.put ("a".toList) ("1".toList)]).lru_list)) ∧
     (runOps (initStore 2 [] none) [Op.put ("a".toList) ("1".toList)]).size =
       (runOps (initStore 2 [] none) [Op.put ("a".toList) ("1".toList)]).lru_list.length ∧
     (runOps (initStore 2 [] none) [Op.put ("a".toList) ("1".toList)]).size ≤ 2) :=
  ⟨by decide,
   c1_index_recency_capacity 2 [] none [Op.put ("a".toList) ("1".toList)] (by decide)⟩

/-- C4: a `get` on a present key promotes it to most-recently-used: with
capacity 3, after put(A), put(B), put(C), get(A), put(D), the evicted key is
B, while A, C and D remain present. -/
theorem c4_recency_promotion :
    (runOps (initStore 3 [] none)
        [Op.put ("A".toList) ("1".toList), Op.put ("B".toList) ("2".toList),
         Op.put ("C".toList) ("3".toList), Op.get ("A".toList),
         Op.put ("D".toList) ("4".toList)]).existsKey ("B".toList) = false ∧
    (runOps (initStore 3 [] none)
        [Op.put ("A".toList) ("1".toList), Op.put ("B".toList) ("2".toList),
         Op.put ("C".toList) ("3".toList), Op.get ("A".toList),
         Op.put ("D".toList) ("4".toList)]).existsKey ("A".toList) = true ∧
    (runOps (initStore 3 [] none)
        [Op.put ("A".toList) ("1".toList), Op.put ("B".toList) ("2".toList),
         Op.put ("C".toList) ("3".toList), Op.get ("A".toList),
         Op.put ("D".toList) ("4".toList)]).existsKey ("C".toList) = true ∧
    (runOps (initStore 3 [] none)
        [Op.put ("A".toList) ("1".toList), Op.put ("B".toList) ("2".toList),
         Op.put ("C".toList) ("3".toList), Op.get ("A".toList),
         Op.put ("D".toList) ("4".toList)]).existsKey ("D".toList) = true := by
  decide

/-- C5: `del(k)` returns true exactly when `k` is present; it removes `k`
from both the index and the recency list, after which `exists(k)` is false
and a second `del(k)` returns false; `del` on an absent key leaves the state
unchanged.  The hypothesis `Inv s` is the well-formedness every reachable
state enjoys (see C1). -/
theorem c5_delete_exists_consistency (s : KVStore) (k : Str) (h : Inv s) :
    ((s.del k).1 = true ↔ (mapFind s.cache k).isSome = true) ∧
    mapFind (s.del k).2.cache k = none ∧
    k ∉ (s.del k).2.lru_list ∧
    (s.del k).2.existsKey k = false ∧
    ((s.del k).2.del k).1 = false ∧
    (mapFind s.cache k = none → (s.del k).2 = s) := by
  obtain ⟨hnd, hperm, _⟩ := h
  have hndk : (s.cache.map Prod.fst).Nodup := hperm.nodup_iff.mpr hnd
  rcases hf : mapFind s.cache k with _ | v0
  · have hkeys : k ∉ s.cache.map Prod.fst := mapFind_eq_none.mp hf
    have hlru : k ∉ s.lru_list := fun hc => hkeys (hperm.mem_iff.mpr hc)
    rw [del_of_none hf]
    exact ⟨by simp [hf], hf, hlru, by simp [KVStore.existsKey, hf],
           by simp [KVStore.del, hf], fun _ => rfl⟩
  · have hfind2 : mapFind (s.del k).2.cache k = none := by
      rw [del_cache_of_found hf]
      exact mapFind_mapErase_self hndk
    refine ⟨by simp [del_fst_of_found hf, hf], hfind2, ?_, ?_, ?_, ?_⟩
    · rw [del_lru_of_found hf]
      exact not_mem_listErase hnd
    · simp [KVStore.existsKey, hfind2]
    · rw [del_of_none hfind2]
    · intro h0
      exact Option.noConfusion h0

theorem c5_delete_exists_consistency_witness :
    Inv ((initStore 2 [] none).put ("a".toList) ("1".toList)).2 ∧
    ((((initStore 2 [] none).put ("a".toList) ("1".toList)).2.del ("a".toList)).1 = true ↔
      (mapFind ((initStore 2 [] none).put ("a".toList) ("1".toList)).2.cache
        ("a".toList)).isSome = true) ∧
    mapFind (((initStore 2 [] none).put ("a".toList) ("1".toList)).2.del
      ("a".toList)).2.cache ("a".toList) = none ∧
    ("a".toList) ∉ (((initStore 2 [] none).put ("a".toList) ("1".toList)).2.del
      ("a".toList)).2.lru_list ∧
    (((initStore 2 [] none).put ("a".toList) ("1".toList)).2.del
      ("a".toList)).2.existsKey ("a".toList) = false ∧
    ((((initStore 2 [] none).put ("a".toList) ("1".toList)).2.del
      ("a".toList)).2.del ("a".toList)).1 = false ∧
    (mapFind ((initStore 2 [] none).put ("a".toList) ("1".toList)).2.cache
      ("a".toList) = none →
      (((initStore 2 [] none).put ("a".toList) ("1".toList)).2.del ("a".toList)).2 =
        ((initStore 2 [] none).put ("a".toList) ("1".toList)).2) :=
  ⟨⟨by decide, by decide, by decide⟩,
   c5_delete_exists_consistency ((initStore 2 [] none).put ("a".toList) ("1".toList)).2
     ("a".toList) ⟨by decide, by decide, by decide⟩⟩

/-- C7: `exists(k)` is a read-only membership check that leaves the entire
state unchanged (it is a `const` member, embedded as a pure function, and the
state after an `exists` operation is the state before), and `get(k)` on an
absent key returns "absent" and returns the state — index, recency order and
log — unchanged. -/
theorem c7_read_only_frame (s : KVStore) (k : Str) :
    (s.existsKey k = (mapFind s.cache k).isSome ∧ applyOp s (Op.exist k) = s) ∧
    (mapFind s.cache k = none → s.get k = (none, s)) :=
  ⟨⟨rfl, rfl⟩, fun hf => get_of_none hf⟩

theorem c7_read_only_frame_witness :
    mapFind (initStore 2 [] none).cache ("a".toList) = none ∧
    (initStore 2 [] none).get ("a".toList) = (none, initStore 2 [] none) :=
  ⟨by decide,
   (c7_read_only_frame (initStore 2 [] none) ("a".toList)).2 (by decide)⟩

/-- C10: the empty string is accepted as a key: for every store state and
every value `v`, `put("", v)` returns true and inserts an entry, after which
`exists("")` is true and `get("")` returns `v`. -/
theorem c10_empty_key_accepted (s : KVStore) (v : Str) :
    (s.put [] v).1 = true ∧
    (s.put [] v).2.existsKey [] = true ∧
    ((s.put [] v).2.get []).1 = some v := by
  have hfind := put_find_self s [] v
  refine ⟨put_fst s [] v, ?_, ?_⟩
  · simp [KVStore.existsKey, hfind]
  · simp [KVStore.get, hfind]

/-! ### WAL content written by runs of mutating operations -/

theorem put_wal_of_open {s : KVStore} {content : Str} (hw : s.wal_file = some content)
    (k v : Str) :
    (s.put k v).2.wal_file = some (content ++ wal_line ("PUT".toList) k v ++ [chNL]) := by
  rcases hf : mapFind s.cache k with _ | v0
  · by_cases hge : s.cache.length ≥ s.max_capacity
    · rcases hglast : s.lru_list.getLast? with _ | a
      · simp [KVStore.put, hf, hge, evict_lru, hglast, write_wal, hw]
      · simp [KVStore.put, hf, hge, evict_lru, hglast, write_wal, hw]
    · simp [KVStore.put, hf, hge, write_wal, hw]
  · simp [KVStore.put, hf, write_wal, hw]

theorem del_wal_of_open {s : KVStore} {content k : Str} {v0 : Str}
    (hw : s.wal_file = some content) (hf : mapFind s.cache k = some v0) :
    (s.del k).2.wal_file = some (content ++ wal_line ("DEL".toList) k [] ++ [chNL]) := by
  simp [KVStore.del, hf, write_wal, hw]

theorem clear_wal_of_open {s : KVStore} {content : Str} (hw : s.wal_file = some content) :
    s.clear.wal_file = some (content ++ wal_line ("CLEAR".toList) [] [] ++ [chNL]) := by
  simp [KVStore.clear, write_wal, hw]

theorem encodeLines_append (a b : List Str) :
    encodeLines (a ++ b) = encodeLines a ++ encodeLines b := by
  induction a with
  | nil => rfl
  | cons r rest ih => simp [encodeLines, ih]

/-- A run of mutating operations on a store with an open WAL appends exactly
the encoding of its record lines. -/
theorem runMut_wal (ops : List MutOp) :
    ∀ (s : KVStore) (content : Str), s.wal_file = some content →
      (runMut s ops).wal_file = some (content ++ encodeLines (walRecords s ops)) := by
  induction ops with
  | nil =>
      intro s content hw
      simpa [runMut, walRecords, encodeLines] using hw
  | cons op rest ih =>
      intro s content hw
      have hstep : runMut s (op :: rest) = runMut (applyMut s op) rest := rfl
      cases op with
      | putOp k v =>
          have hw1 := put_wal_of_open hw k v
          have := ih ((s.put k v).2) _ hw1
          rw [hstep]
          simp only [applyMut] at *
          rw [this]
          simp [walRecords, applyMut, encodeLines, encodeLines_append, List.append_assoc]
      | delOp k =>
          rcases hf : mapFind s.cache k with _ | v0
          · have hsame : applyMut s (.delOp k) = s := by
              simp [applyMut, del_of_none hf]
            rw [hstep, hsame]
            have := ih s content hw
            rw [this]
            simp [walRecords, hf, hsame]
          · have hw1 := del_wal_of_open hw hf
            have := ih ((s.del k).2) _ hw1
            rw [hstep]
            simp only [applyMut] at *
            rw [this]
            simp [walRecords, hf, applyMut, encodeLines, encodeLines_append, List.append_assoc]
      | clearOp =>
          have hw1 := clear_wal_of_open hw
          have := ih s.clear _ hw1
          rw [hstep]
          simp only [applyMut] at *
          rw [this]
          simp [walRecords, applyMut, encodeLines, encodeLines_append, List.append_assoc]

/-! ### Parsing the rendered record lines back (the replay loop) -/

theorem takeWhile_all {p : Char → Bool} {l : Str} (h : ∀ c ∈ l, p c = true) :
    l.takeWhile p = l := by
  induction l with
  | nil => rfl
  | cons a tl ih =>
      simp [List.takeWhile_cons, h a (List.mem_cons_self _ _),
            ih (fun c hc => h c (List.mem_cons_of_mem _ hc))]

theorem dropWhile_all {p : Char → Bool} {l : Str} (h : ∀ c ∈ l, p c = true) :
    l.dropWhile p = [] := by
  induction l with
  | nil => rfl
  | cons a tl ih =>
      simp [List.dropWhile_cons, h a (List.mem_cons_self _ _),
            ih (fun c hc => h c (List.mem_cons_of_mem _ hc))]

theorem takeWhile_append_stop {p : Char → Bool} {l : Str} {c : Char} (r : Str)
    (hl : ∀ x ∈ l, p x = true) (hc : p c = false) :
    (l ++ c :: r).takeWhile p = l := by
  induction l with
  | nil => simp [List.takeWhile_cons, hc]
  | cons a tl ih =>
      simp [List.takeWhile_cons, hl a (List.mem_cons_self _ _),
            ih (fun x hx => hl x (List.mem_cons_of_mem _ hx))]

theorem dropWhile_append_stop {p : Char → Bool} {l : Str} {c : Char} (r : Str)
    (hl : ∀ x ∈ l, p x = true) (hc : p c = false) :
    (l ++ c :: r).dropWhile p = c :: r := by
  induction l with
  | nil => simp [List.dropWhile_cons, hc]
  | cons a tl ih =>
      simp [List.dropWhile_cons, hl a (List.mem_cons_self _ _),
            ih (fun x hx => hl x (List.mem_cons_of_mem _ hx))]

theorem extractToken_cons_space (cs : Str) :
    extractToken (chSpace :: cs) = extractToken cs := by
  unfold extractToken
  have h : isCppSpace chSpace = true := by decide
  simp [List.dropWhile_cons, h]

theorem extractToken_run {c : Char} {tl : Str} (rest : Str) (hc : isCppSpace c = false)
    (htl : ∀ x ∈ tl, isCppSpace x = false) :
    extractToken (c :: (tl ++ chSpace :: rest)) = some (c :: tl, chSpace :: rest) := by
  have hq : ∀ x ∈ tl, (! isCppSpace x) = true := fun x hx => by rw [htl x hx]; rfl
  have hsp : (! isCppSpace chSpace) = false := by decide
  unfold extractToken
  rw [List.dropWhile_cons]
  simp only [hc, Bool.false_eq_true, if_false]
  simp only [List.takeWhile_cons, List.dropWhile_cons, hc, Bool.not_false, if_true]
  rw [takeWhile_append_stop rest hq hsp, dropWhile_append_stop rest hq hsp]

theorem extractToken_run_end {c : Char} {tl : Str} (hc : isCppSpace c = false)
    (htl : ∀ x ∈ tl, isCppSpace x = false) :
    extractToken (c :: tl) = some (c :: tl, []) := by
  have hq : ∀ x ∈ tl, (! isCppSpace x) = true := fun x hx => by rw [htl x hx]; rfl
  unfold extractToken
  rw [List.dropWhile_cons]
  simp only [hc, Bool.false_eq_true, if_false]
  simp only [List.takeWhile_cons, List.dropWhile_cons, hc, Bool.not_false, if_true]
  rw [takeWhile_all hq, dropWhile_all hq]

theorem replayLine_put (t : KVStore) {k : Str} (v : Str) (hk : goodKey k) (hv : goodVal v) :
    replayLine t (wal_line ("PUT".toList) k v) = (t.put k v).2 := by
  obtain ⟨hne, hks⟩ := hk
  rcases k with _ | ⟨ck, ktl⟩
  · exact absurd rfl hne
  have hck : isCppSpace ck = false := hks ck (List.mem_cons_self _ _)
  have hktl : ∀ x ∈ ktl, isCppSpace x = false := fun x hx => hks x (List.mem_cons_of_mem _ hx)
  have hUT : ∀ x ∈ (['U', 'T'] : Str), isCppSpace x = false := by decide
  have hP : isCppSpace 'P' = false := by decide
  by_cases hv0 : v.isEmpty
  · have hveq : v = [] := by rwa [List.isEmpty_iff] at hv0
    subst hveq
    have hline : wal_line ("PUT".toList) (ck :: ktl) [] =
        'P' :: (['U', 'T'] ++ chSpace :: (ck :: ktl)) := by
      simp [wal_line]
    rw [hline]
    unfold replayLine
    rw [extractToken_run (ck :: ktl) hP hUT]
    simp only []
    have hcond : (['P', 'U', 'T'] : Str) = ("PUT".toList) := rfl
    rw [if_pos hcond]
    rw [extractToken_cons_space, extractToken_run_end hck hktl]
    simp [List.takeWhile]
  · have hvne : v ≠ [] := by
      intro hveq
      rw [hveq] at hv0
      exact hv0 rfl
    have hline : wal_line ("PUT".toList) (ck :: ktl) v =
        'P' :: (['U', 'T'] ++ chSpace :: ((ck :: ktl) ++ chSpace :: v)) := by
      simp [wal_line, hv0]
    rw [hline]
    unfold replayLine
    rw [extractToken_run ((ck :: ktl) ++ chSpace :: v) hP hUT]
    simp only []
    have hcond : (['P', 'U', 'T'] : Str) = ("PUT".toList) := rfl
    rw [if_pos hcond]
    rw [extractToken_cons_space, List.cons_append, extractToken_run v hck hktl]
    have hraw : (chSpace :: v).takeWhile (fun c => ! (c = chNL)) = chSpace :: v := by
      refine takeWhile_all ?_
      intro c hc
      rcases List.mem_cons.mp hc with hc1 | hc1
      · subst hc1
        decide
      · have : ¬ c = chNL := fun hcc => hv (hcc ▸ hc1)
        simp [this]
    simp [hraw]

theorem replayLine_del (t : KVStore) {k : Str} (hk : goodKey k) :
    replayLine t (wal_line ("DEL".toList) k []) = (t.del k).2 := by
  obtain ⟨hne, hks⟩ := hk
  rcases k with _ | ⟨ck, ktl⟩
  · exact absurd rfl hne
  have hck : isCppSpace ck = false := hks ck (List.mem_cons_self _ _)
  have hktl : ∀ x ∈ ktl, isCppSpace x = false := fun x hx => hks x (List.mem_cons_of_mem _ hx)
  have hEL : ∀ x ∈ (['E', 'L'] : Str), isCppSpace x = false := by decide
  have hD : isCppSpace 'D' = false := by decide
  have hline : wal_line ("DEL".toList) (ck :: ktl) [] =
      'D' :: (['E', 'L'] ++ chSpace :: (ck :: ktl)) := by
    simp [wal_line]
  rw [hline]
  unfold replayLine
  rw [extractToken_run (ck :: ktl) hD hEL]
  simp only []
  have hc1 : ¬ (['D', 'E', 'L'] : Str) = ("PUT".toList) := by decide
  have hc2 : (['D', 'E', 'L'] : Str) = ("DEL".toList) := rfl
  rw [if_neg hc1, if_pos hc2]
  rw [extractToken_cons_space, extractToken_run_end hck hktl]

theorem replayLine_clear (t : KVStore) :
    replayLine t (wal_line ("CLEAR".toList) [] []) = t.clear := by
  have hline : wal_line ("CLEAR".toList) [] [] =
      'C' :: (['L', 'E', 'A', 'R'] ++ chSpace :: ([] : Str)) := by
    simp [wal_line]
  rw [hline]
  unfold replayLine
  rw [extractToken_run [] (by decide) (by decide)]
  simp only []
  have hc1 : ¬ (['C', 'L', 'E', 'A', 'R'] : Str) = ("PUT".toList) := by decide
  have hc2 : ¬ (['C', 'L', 'E', 'A', 'R'] : Str) = ("DEL".toList) := by decide
  have hc3 : (['C', 'L', 'E', 'A', 'R'] : Str) = ("CLEAR".toList) := rfl
  rw [if_neg hc1, if_neg hc2, if_pos hc3]

/-! ### Replay reconstructs the run -/

theorem put_lru_of_none_ge_nil {s : KVStore} {k : Str} (v : Str)
    (hf : mapFind s.cache k = none) (hge : s.cache.length ≥ s.max_capacity)
    (hglast : s.lru_list.getLast? = none) :
    (s.put k v).2.lru_list = k :: s.lru_list := by
  simp [KVStore.put, hf, hge, evict_lru, hglast, write_wal_lru]

theorem core_fields {s t : KVStore} (h : core s = core t) :
    s.cache = t.cache ∧ s.lru_list = t.lru_list ∧ s.max_capacity = t.max_capacity := by
  simpa [core, Prod.ext_iff] using h

theorem core_put {s t : KVStore} (h : core s = core t) (k v : Str) :
    core (s.put k v).2 = core (t.put k v).2 := by
  obtain ⟨h1, h2, h3⟩ := core_fields h
  rcases hf : mapFind s.cache k with _ | v0
  · have hf' : mapFind t.cache k = none := by rw [← h1]; exact hf
    by_cases hge : s.cache.length ≥ s.max_capacity
    · have hge' : t.cache.length ≥ t.max_capacity := by rw [← h1, ← h3]; exact hge
      rcases hglast : s.lru_list.getLast? with _ | a
      · have hglast' : t.lru_list.getLast? = none := by rw [← h2]; exact hglast
        simp [core, put_cache_of_none_ge_nil v hf hge hglast,
              put_cache_of_none_ge_nil v hf' hge' hglast',
              put_lru_of_none_ge_nil v hf hge hglast,
              put_lru_of_none_ge_nil v hf' hge' hglast', put_max, h1, h2, h3]
      · have hglast' : t.lru_list.getLast? = some a := by rw [← h2]; exact hglast
        simp [core, put_cache_of_none_ge v hf hge hglast,
              put_cache_of_none_ge v hf' hge' hglast',
              put_lru_of_none_ge v hf hge hglast,
              put_lru_of_none_ge v hf' hge' hglast', put_max, h1, h2, h3]
    · have hlt : s.cache.length < s.max_capacity := Nat.lt_of_not_le hge
      have hlt' : t.cache.length < t.max_capacity := by rw [← h1, ← h3]; exact hlt
      simp [core, put_cache_of_none_lt v hf hlt, put_cache_of_none_lt v hf' hlt',
            put_lru_of_none_lt v hf hlt, put_lru_of_none_lt v hf' hlt',
            put_max, h1, h2, h3]
  · have hf' : mapFind t.cache k = some v0 := by rw [← h1]; exact hf
    simp [core, put_cache_of_found v hf, put_cache_of_found v hf',
          put_lru_of_found v hf, put_lru_of_found v hf', put_max, h1, h2, h3]

theorem core_del {s t : KVStore} (h : core s = core t) (k : Str) :
    core (s.del k).2 = core (t.del k).2 := by
  obtain ⟨h1, h2, h3⟩ := core_fields h
  rcases hf : mapFind s.cache k with _ | v0
  · have hf' : mapFind t.cache k = none := by rw [← h1]; exact hf
    rw [del_of_none hf, del_of_none hf']
    exact h
  · have hf' : mapFind t.cache k = some v0 := by rw [← h1]; exact hf
    simp [core, del_cache_of_found hf, del_cache_of_found hf',
          del_lru_of_found hf, del_lru_of_found hf', del_max, h1, h2, h3]

theorem core_clear {s t : KVStore} (h : core s = core t) :
    core s.clear = core t.clear := by
  obtain ⟨_, _, h3⟩ := core_fields h
  simp [core, clear_cache, clear_lru, clear_max, h3]

theorem core_applyMut {s t : KVStore} (h : core s = core t) (op : MutOp) :
    core (applyMut s op) = core (applyMut t op) := by
  cases op with
  | putOp k v => exact core_put h k v
  | delOp k => exact core_del h k
  | clearOp => exact core_clear h

theorem replay_runMut (ops : List MutOp) (hops : ∀ op ∈ ops, GoodOp op) :
    ∀ {s t : KVStore}, core s = core t →
      core ((walRecords s ops).foldl replayLine t) = core (runMut s ops) := by
  induction ops with
  | nil =>
      intro s t h
      simpa [walRecords, runMut] using h.symm
  | cons op rest ih =>
      intro s t h
      have hop := hops op (List.mem_cons_self _ _)
      have hrest : ∀ o ∈ rest, GoodOp o := fun o ho => hops o (List.mem_cons_of_mem _ ho)
      cases op with
      | putOp k v =>
          obtain ⟨hk, hv⟩ := hop
          have hfold : walRecords s (MutOp.putOp k v :: rest) =
              wal_line ("PUT".toList) k v :: walRecords ((s.put k v).2) rest := by
            simp [walRecords, applyMut]
          rw [hfold, List.foldl_cons, replayLine_put t v hk hv]
          have hstep : core ((s.put k v).2) = core ((t.put k v).2) := core_put h k v
          rw [show runMut s (MutOp.putOp k v :: rest) = runMut ((s.put k v).2) rest from rfl]
          exact ih hrest hstep
      | delOp k =>
          rcases hf : mapFind s.cache k with _ | v0
          · have happ : applyMut s (MutOp.delOp k) = s := by
              simp [applyMut, del_of_none hf]
            have hfold : walRecords s (MutOp.delOp k :: rest) = walRecords s rest := by
              simp [walRecords, hf, happ]
            rw [hfold]
            rw [show runMut s (MutOp.delOp k :: rest) =
                  runMut (applyMut s (MutOp.delOp k)) rest from rfl, happ]
            exact ih hrest h
          · have hfold : walRecords s (MutOp.delOp k :: rest) =
                wal_line ("DEL".toList) k [] :: walRecords ((s.del k).2) rest := by
              simp [walRecords, hf, applyMut]
            rw [hfold, List.foldl_cons, replayLine_del t hop]
            have hstep : core ((s.del k).2) = core ((t.del k).2) := core_del h k
            rw [show runMut s (MutOp.delOp k :: rest) = runMut ((s.del k).2) rest from rfl]
            exact ih hrest hstep
      | clearOp =>
          have hfold : walRecords s (MutOp.clearOp :: rest) =
              wal_line ("CLEAR".toList) [] [] :: walRecords s.clear rest := by
            simp [walRecords, applyMut]
          rw [hfold, List.foldl_cons, replayLine_clear t]
          have hstep : core s.clear = core t.clear := core_clear h
          rw [show runMut s (MutOp.clearOp :: rest) = runMut s.clear rest from rfl]
          exact ih hrest hstep

/-! ### Reading the encoded log back as lines -/

theorem not_nl_of_not_space {c : Char} (h : isCppSpace c = false) : ¬ c = chNL := by
  intro hc
  rw [hc] at h
  exact absurd h (by decide)

theorem wal_line_noNL {op k v : Str} (hop : ∀ c ∈ op, ¬ c = chNL)
    (hk : ∀ c ∈ k, ¬ c = chNL) (hv : ∀ c ∈ v, ¬ c = chNL) :
    ∀ c ∈ wal_line op k v, ¬ c = chNL := by
  intro c hc
  unfold wal_line at hc
  rcases List.mem_append.mp hc with h1 | h1
  · rcases List.mem_append.mp h1 with h2 | h2
    · exact hop c h2
    · rcases List.mem_cons.mp h2 with h3 | h3
      · subst h3
        decide
      · exact hk c h3
  · by_cases hv0 : v.isEmpty
    · rw [if_pos hv0] at h1
      exact absurd h1 (List.not_mem_nil c)
    · rw [if_neg hv0] at h1
      rcases List.mem_cons.mp h1 with h4 | h4
      · subst h4
        decide
      · exact hv c h4

theorem walRecords_noNL (ops : List MutOp) (hops : ∀ op ∈ ops, GoodOp op) :
    ∀ (s : KVStore), ∀ r ∈ walRecords s ops, ∀ c ∈ r, ¬ c = chNL := by
  induction ops with
  | nil =>
      intro s r hr
      simp [walRecords] at hr
  | cons op rest ih =>
      intro s r hr
      have hop := hops op (List.mem_cons_self _ _)
      have hrest : ∀ o ∈ rest, GoodOp o := fun o ho => hops o (List.mem_cons_of_mem _ ho)
      have hih := ih hrest (applyMut s op)
      cases op with
      | putOp k v =>
          obtain ⟨⟨hkne, hks⟩, hv⟩ := hop
          have hr' : r = wal_line ("PUT".toList) k v ∨
              r ∈ walRecords (applyMut s (MutOp.putOp k v)) rest := by
            simpa [walRecords] using hr
          rcases hr' with rfl | hc
          · exact wal_line_noNL (by decide)
              (fun c hcc => not_nl_of_not_space (hks c hcc))
              (fun c hcc hnl => hv (hnl ▸ hcc))
          · exact hih r hc
      | delOp k =>
          obtain ⟨hkne, hks⟩ := hop
          have hr' : ((mapFind s.cache k).isSome = true ∧ r = wal_line ("DEL".toList) k []) ∨
              r ∈ walRecords (applyMut s (MutOp.delOp k)) rest := by
            simpa [walRecords] using hr
          rcases hr' with ⟨_, rfl⟩ | hc
          · exact wal_line_noNL (by decide)
              (fun c hcc => not_nl_of_not_space (hks c hcc))
              (fun c hcc => absurd hcc (List.not_mem_nil c))
          · exact hih r hc
      | clearOp =>
          have hr' : r = wal_line ("CLEAR".toList) [] [] ∨
              r ∈ walRecords (applyMut s MutOp.clearOp) rest := by
            simpa [walRecords] using hr
          rcases hr' with rfl | hc
          · exact wal_line_noNL (by decide)
              (fun c hcc => absurd hcc (List.not_mem_nil c))
              (fun c hcc => absurd hcc (List.not_mem_nil c))
          · exact hih r hc

theorem splitNL_prepend (cs : Str) {l : Str} {ls : List Str} (h : splitNL cs = l :: ls) :
    ∀ r : Str, (∀ c ∈ r, ¬ c = chNL) → splitNL (r ++ cs) = (r ++ l) :: ls := by
  intro r
  induction r with
  | nil =>
      intro _
      simpa using h
  | cons c tl ih =>
      intro hr
      have hc : ¬ c = chNL := hr c (List.mem_cons_self _ _)
      have ih' := ih (fun x hx => hr x (List.mem_cons_of_mem _ hx))
      simp only [List.cons_append, splitNL, if_neg hc, List.append_eq]
      rw [ih']

theorem splitNL_encodeLines (rs : List Str) (h : ∀ r ∈ rs, ∀ c ∈ r, ¬ c = chNL) :
    splitNL (encodeLines rs) = rs ++ [[]] := by
  induction rs with
  | nil => rfl
  | cons r rest ih =>
      have h2 := ih (fun x hx => h x (List.mem_cons_of_mem _ hx))
      have h3 : splitNL (chNL :: encodeLines rest) = [] :: (rest ++ [[]]) := by
        simp [splitNL, h2]
      have h4 := splitNL_prepend (chNL :: encodeLines rest) h3 r (h r (List.mem_cons_self _ _))
      show splitNL (r ++ chNL :: encodeLines rest) = (r :: rest) ++ [[]]
      rw [h4]
      simp

theorem dropFinalEmpty_concat (rs : List Str) : dropFinalEmpty (rs ++ [[]]) = rs := by
  unfold dropFinalEmpty
  rw [List.getLast?_concat]
  simp [List.dropLast_concat]

theorem getLines_encodeLines (rs : List Str) (h : ∀ r ∈ rs, ∀ c ∈ r, ¬ c = chNL) :
    getLines (encodeLines rs) = rs := by
  unfold getLines
  rw [splitNL_encodeLines rs h, dropFinalEmpty_concat]

/-! ### Claim theorems: C2, C3, C6, C9 -/

/-- C2 (amended): for every sequence of put/delete/clear operations whose
keys are nonempty and contain no whitespace character (space, tab, newline,
carriage return, vertical tab, form feed — the characters the `>>` extractor
splits on) and whose values contain no newline, applied to a cache with
capacity `cap` and a fresh open log, constructing a fresh cache with the
same capacity over the resulting log content and calling `recover()` yields
a final state binding exactly the same value (or none) to every key.  The
claim as frozen only excludes the space character from keys; that is not
enough — see the counterexample with a tab inside a key. -/
theorem c2_recovery_round_trip (cap : Nat) (wp : Str) (ops : List MutOp)
    (hwp : wp ≠ []) (hops : ∀ op ∈ ops, GoodOp op) :
    ∀ k, mapFind (recoveredRun cap wp ops).cache k =
      mapFind (originalRun cap wp ops).cache k := by
  intro k
  have hwal := runMut_wal ops (initStore cap wp (some [])) [] rfl
  have hcontent : walContent (originalRun cap wp ops) =
      encodeLines (walRecords (initStore cap wp (some [])) ops) := by
    simp [walContent, originalRun, hwal]
  have hrec : recoveredRun cap wp ops =
      { (getLines (walContent (originalRun cap wp ops))).foldl replayLine
          { initStore cap wp (some (walContent (originalRun cap wp ops))) with
            wal_file := none } with
        wal_file := some (walContent (originalRun cap wp ops)) } := by
    simp [recoveredRun, KVStore.recover, initStore, hwp]
  rw [hrec]
  have hlines : getLines (walContent (originalRun cap wp ops)) =
      walRecords (initStore cap wp (some [])) ops := by
    rw [hcontent]
    exact getLines_encodeLines _ (walRecords_noNL ops hops _)
  rw [hlines]
  have hcore : core ((walRecords (initStore cap wp (some [])) ops).foldl replayLine
      { initStore cap wp (some (walContent (originalRun cap wp ops))) with
        wal_file := none }) =
      core (runMut (initStore cap wp (some [])) ops) :=
    replay_runMut ops hops rfl
  have hcache := (core_fields hcore).1
  show mapFind ((walRecords (initStore cap wp (some [])) ops).foldl replayLine
      { initStore cap wp (some (walContent (originalRun cap wp ops))) with
        wal_file := none }).cache k = mapFind (originalRun cap wp ops).cache k
  rw [hcache]
  rfl

theorem c2_recovery_round_trip_witness :
    (("w".toList) ≠ ([] : Str)) ∧
    (∀ op ∈ [MutOp.putOp ("a".toList) ("1".toList)], GoodOp op) ∧
    mapFind (recoveredRun 2 ("w".toList)
        [MutOp.putOp ("a".toList) ("1".toList)]).cache ("a".toList) =
      mapFind (originalRun 2 ("w".toList)
        [MutOp.putOp ("a".toList) ("1".toList)]).cache ("a".toList) :=
  ⟨by decide, by decide,
   c2_recovery_round_trip 2 ("w".toList) [MutOp.putOp ("a".toList) ("1".toList)]
     (by decide) (by decide) ("a".toList)⟩

/-- C2 counterexample: the claim as stated only requires keys to contain no
space character.  The key "a\tb" (with a tab) is nonempty, contains no space,
and the value "v" contains no newline, yet the round trip loses the key:
after recovery the original key is absent (the `>>` extractor stops at the
tab, so replay inserts key "a" with value "\tb v" instead). -/
theorem c2_round_trip_fails_as_stated :
    chSpace ∉ (("a\tb").toList) ∧ (("a\tb").toList) ≠ [] ∧ chNL ∉ (("v").toList) ∧
    (originalRun 10 ("w".toList)
        [MutOp.putOp (("a\tb").toList) (("v").toList)]).existsKey (("a\tb").toList)
      = true ∧
    (recoveredRun 10 ("w".toList)
        [MutOp.putOp (("a\tb").toList) (("v").toList)]).existsKey (("a\tb").toList)
      = false := by
  decide

/-- C3 (amended): every log record occupies one newline-terminated line.  A
PUT record with a nonempty value is the operation, the key and the value
separated by single spaces; a PUT record with an empty value omits the value
field and its separator; a DEL record is the operation and the key; a CLEAR
record is the operation name followed by a single trailing space (the
separator emitted before its empty key field) — not the operation name
alone as the claim states. -/
theorem c3_log_record_layout (s : KVStore) (k v content : Str)
    (hw : s.wal_file = some content) :
    (s.put k v).2.wal_file =
      some (content ++ (("PUT ".toList) ++ k ++
        (if v.isEmpty then [] else chSpace :: v)) ++ [chNL]) ∧
    (∀ v0, mapFind s.cache k = some v0 →
      (s.del k).2.wal_file = some (content ++ (("DEL ".toList) ++ k) ++ [chNL])) ∧
    s.clear.wal_file = some (content ++ ("CLEAR ".toList) ++ [chNL]) := by
  refine ⟨?_, ?_, ?_⟩
  · rw [put_wal_of_open hw k v]
    simp [wal_line, chSpace]
  · intro v0 hf
    rw [del_wal_of_open hw hf]
    simp [wal_line, chSpace]
  · rw [clear_wal_of_open hw]
    simp [wal_line, chSpace]

theorem c3_log_record_layout_witness :
    (initStore 4 ("w".toList) (some [])).wal_file = some [] ∧
    (((initStore 4 ("w".toList) (some [])).put ("k".toList) ("x y".toList)).2.wal_file =
      some (([] : Str) ++ (("PUT ".toList) ++ ("k".toList) ++
        (if ("x y".toList).isEmpty then [] else chSpace :: ("x y".toList))) ++ [chNL])) ∧
    ((initStore 4 ("w".toList) (some [])).clear.wal_file =
      some (([] : Str) ++ ("CLEAR ".toList) ++ [chNL])) :=
  ⟨rfl,
   (c3_log_record_layout (initStore 4 ("w".toList) (some [])) ("k".toList)
     ("x y".toList) [] rfl).1,
   (c3_log_record_layout (initStore 4 ("w".toList) (some [])) ("k".toList)
     ("x y".toList) [] rfl).2.2⟩

/-- C3 counterexample: the record `clear()` writes is the line "CLEAR "
(operation name plus a trailing space before the newline), not the operation
name "CLEAR" alone, contradicting "a CLEAR line consists of the operation
name alone" with "no other characters". -/
theorem c3_clear_record_not_bare :
    (initStore 2 ("w".toList) (some [])).clear.wal_file = some (("CLEAR \n").toList) ∧
    getLines (("CLEAR \n").toList) = [("CLEAR ").toList] ∧
    (("CLEAR ").toList) ≠ (("CLEAR").toList) := by
  decide

/-- C6: `recover()` returns false exactly when no log is configured
(`wal_path_` empty) or the log cannot be opened for reading (`disk = none`),
and in that case leaves the store unchanged; in every other case it returns
true, even when zero records are replayed; and every malformed record line
(operation token missing, PUT or DEL without a key token, or an unrecognized
operation) is individually skipped by the replay loop, leaving the state
unchanged so that replay continues with the next record. -/
theorem c6_recover_errors (s : KVStore) (disk : Option Str) :
    ((s.recover disk).1 = false ↔ (s.wal_path = [] ∨ disk = none)) ∧
    ((s.wal_path = [] ∨ disk = none) → (s.recover disk).2 = s) ∧
    (∀ t line, malformedLine line = true → replayLine t line = t) := by
  refine ⟨?_, ?_, ?_⟩
  · by_cases hp : s.wal_path = []
    · simp [KVStore.recover, hp]
    · rcases disk with _ | d
      · simp [KVStore.recover, hp]
      · simp [KVStore.recover, hp]
  · intro h
    rcases h with hp | hd
    · simp [KVStore.recover, hp]
    · subst hd
      by_cases hp : s.wal_path = []
      · simp [KVStore.recover, hp]
      · simp [KVStore.recover, hp]
  · intro t line hm
    rcases he : extractToken line with _ | ⟨op, rest⟩
    · simp [replayLine, he]
    · by_cases hput : op = (['P', 'U', 'T'] : Str)
      · rcases hr : extractToken rest with _ | ⟨key, rest2⟩
        · simp [replayLine, he, hput, hr]
        · simp [malformedLine, he, hput, hr] at hm
      · by_cases hdel : op = (['D', 'E', 'L'] : Str)
        · rcases hr : extractToken rest with _ | ⟨key, rest2⟩
          · simp [replayLine, he, hput, hdel, hr]
          · simp [malformedLine, he, hput, hdel, hr] at hm
        · by_cases hclear : op = (['C', 'L', 'E', 'A', 'R'] : Str)
          · simp [malformedLine, he, hput, hdel, hclear] at hm
          · simp [replayLine, he, hput, hdel, hclear]

theorem c6_recover_errors_witness :
    ((initStore 2 [] none).recover none).1 = false ∧
    ((initStore 2 [] none).recover none).2 = initStore 2 [] none ∧
    replayLine (initStore 2 [] none) (("BOGUS x").toList) = initStore 2 [] none :=
  ⟨(c6_recover_errors (initStore 2 [] none) none).1.mpr (Or.inl rfl),
   (c6_recover_errors (initStore 2 [] none) none).2.1 (Or.inl rfl),
   (c6_recover_errors (initStore 2 [] none) none).2.2 (initStore 2 [] none)
     (("BOGUS x").toList) (by decide)⟩

/-- C9: `recover()` does not empty the cache before replaying: with a log
configured, it succeeds and its result is the pre-call state — cache and
recency list intact, WAL handle suspended — transformed by folding the
log's lines through the live `replayLine` dispatch (put/del/clear) in
order, with the WAL handle restored at the end. -/
theorem c9_recover_applies_on_top (s : KVStore) (d : Str) (hp : s.wal_path ≠ []) :
    s.recover (some d) =
      (true, { (getLines d).foldl replayLine { s with wal_file := none } with
                 wal_file := s.wal_file }) := by
  simp [KVStore.recover, hp]

theorem c9_recover_applies_on_top_witness :
    (((initStore 10 ("w".toList) (some [])).put ("x".toList) ("1".toList)).2.wal_path ≠ []) ∧
    (((initStore 10 ("w".toList) (some [])).put ("x".toList) ("1".toList)).2.recover
        (some (("PUT y 2\n").toList)) =
      (true, { (getLines (("PUT y 2\n").toList)).foldl replayLine
                 { ((initStore 10 ("w".toList) (some [])).put ("x".toList)
                     ("1".toList)).2 with wal_file := none } with
               wal_file := ((initStore 10 ("w".toList) (some [])).put ("x".toList)
                 ("1".toList)).2.wal_file })) ∧
    (((initStore 10 ("w".toList) (some [])).put ("x".toList) ("1".toList)).2.recover
        (some (("PUT y 2\n").toList))).2.existsKey ("x".toList) = true ∧
    (((initStore 10 ("w".toList) (some [])).put ("x".toList) ("1".toList)).2.recover
        (some (("PUT y 2\n").toList))).2.existsKey ("y".toList) = true :=
  ⟨by decide,
   c9_recover_applies_on_top
     ((initStore 10 ("w".toList) (some [])).put ("x".toList) ("1".toList)).2
     (("PUT y 2\n").toList) (by decide),
   by decide, by decide⟩

end KV
